import Mathlib

/-!
Verification development for the Pokemon card detector pipeline:
contour candidate extraction, corner ordering, perspective normalization,
and fingerprint matching with a Hamming-distance primary metric and a
hex-digit tie-break.  Definitions are shallow embeddings of the Python
sources (`find_similar_card.py`, `find_similar_cardV2.py`, `card_warper.py`,
`detect_card_test.py`, `detect_card.py`); external OpenCV / imagehash
primitives are modelled from the specification where noted.
-/

namespace CardDetector

/-! ## Fingerprints and distances (find_similar_cardV2.py) -/

/-- Modelled from the spec: a perceptual fingerprint is a fixed-length bit
vector (the `imagehash` objects built by `load_hashed_data` are external to
the repository).  The Hamming distance computed by `input_hash_obj -
stored_hash_obj` is the count of differing bit positions between two
equal-length bit vectors. -/
def hammingDistance (h1 h2 : List Bool) : ℕ :=
  ((h1.zip h2).filter (fun p => p.1 != p.2)).length

/-- A catalog record as consumed by the matchers: the dictionaries in
`hashed_data` after `load_hashed_data`, having fields `id`, `name`, `hash`
(hex string) and `hash_obj` (decoded bit vector). -/
structure CardEntry where
  id : String
  name : String
  hash : String
  hash_obj : List Bool
deriving DecidableEq, Repr

/-- Which metric settled the match: `final_distance_metric` in
`find_matching_card_with_tiebreak` is either the Hamming distance
("Hamming") or the custom hex-digit distance used after a Hamming tie
("Personnalisée (après égalité Hamming)"). -/
inductive Metric where
  | hamming
  | tiebreak
deriving DecidableEq, Repr

/-- The data returned from `find_matching_card_with_tiebreak`: the matched
entry together with the local variables `final_distance_metric` and
`final_distance_value` at the return point. -/
structure MatchResult where
  entry : CardEntry
  metric : Metric
  distance : WithTop ℕ
deriving DecidableEq

/-- `int(c, 16)` on a single character: its hexadecimal digit value, or
`none` when the character is not a hex digit (Python raises `ValueError`). -/
def hexCharVal (c : Char) : Option ℕ :=
  if ('0' ≤ c ∧ c ≤ '9') then some (c.toNat - ('0').toNat)
  else if ('a' ≤ c ∧ c ≤ 'f') then some (c.toNat - ('a').toNat + 10)
  else if ('A' ≤ c ∧ c ≤ 'F') then some (c.toNat - ('A').toNat + 10)
  else none

/-- The summation loop of `custom_hex_char_diff_distance`: walk the zipped
characters accumulating `abs(val1 - val2)`; a non-hex character makes the
whole distance `float('inf')` (here `⊤`). -/
def customDiffAux : List (Char × Char) → ℕ → WithTop ℕ
  | [], total_difference => (total_difference : WithTop ℕ)
  | (c1, c2) :: rest, total_difference =>
    match hexCharVal c1, hexCharVal c2 with
    | some v1, some v2 => customDiffAux rest (total_difference + ((v1 : ℤ) - (v2 : ℤ)).natAbs)
    | _, _ => ⊤

/-- `custom_hex_char_diff_distance` from find_similar_cardV2.py: infinity on
length mismatch, otherwise the sum over corresponding hex digit positions of
the absolute difference of the digit values. -/
def custom_hex_char_diff_distance (hex_hash1_str hex_hash2_str : String) : WithTop ℕ :=
  if hex_hash1_str.length ≠ hex_hash2_str.length then ⊤
  else customDiffAux (hex_hash1_str.toList.zip hex_hash2_str.toList) 0

/-! ## The two matchers -/

/-- One iteration of the "track the best so far" loop shared (with identical
shape) by the scan in `find_matching_card` and the tie-break scan in
`find_matching_card_with_tiebreak`: skip an entry without a usable field,
otherwise replace the current best on strict improvement (so ties keep the
first entry encountered). -/
def bestStep (skip : CardEntry → Bool) (dist : CardEntry → WithTop ℕ)
    (acc : WithTop ℕ × Option CardEntry) (e : CardEntry) : WithTop ℕ × Option CardEntry :=
  if skip e then acc
  else if dist e < acc.1 then (dist e, some e) else acc

/-- `min_hamming_dist` as computed by the first loop of
`find_matching_card_with_tiebreak`: starting from `float('inf')`, entries
whose `hash_obj` is unusable are skipped (`if not stored_hash_obj:
continue`), every other entry lowers the running minimum. -/
def minHammingDist (input_hash_obj : List Bool) (hashed_data : List CardEntry) : WithTop ℕ :=
  hashed_data.foldl
    (fun m e => if e.hash_obj.isEmpty then m
      else min m ((hammingDistance input_hash_obj e.hash_obj : ℕ) : WithTop ℕ)) ⊤

/-- `tied_on_hamming`: the (order-preserving) sublist of entries that were
scanned (usable `hash_obj`) and attain the minimal Hamming distance. -/
def tiedOnHamming (input_hash_obj : List Bool) (hashed_data : List CardEntry) : List CardEntry :=
  hashed_data.filter
    (fun e => !e.hash_obj.isEmpty &&
      decide (((hammingDistance input_hash_obj e.hash_obj : ℕ) : WithTop ℕ) =
        minHammingDist input_hash_obj hashed_data))

/-- `find_matching_card` from find_similar_card.py (the V1 matcher), after
the query image has been hashed: a single scan keeping the strictly best
Hamming distance, returning the best entry iff its distance is within
`max_hamming_distance`. -/
def find_matching_card (input_hash : List Bool) (hashed_data : List CardEntry)
    (max_hamming_distance : ℕ) : Option CardEntry :=
  let r := hashed_data.foldl
    (bestStep (fun e => e.hash_obj.isEmpty)
      (fun e => ((hammingDistance input_hash e.hash_obj : ℕ) : WithTop ℕ)))
    (⊤, none)
  match r.2 with
  | some best_match => if r.1 ≤ (max_hamming_distance : WithTop ℕ) then some best_match else none
  | none => none

/-- The tie-break block of `find_matching_card_with_tiebreak`, run on the
tied entries when `len(tied_on_hamming) > 1`: scan for the strictly best
custom hex-digit distance (so residual ties keep the first entry in
catalog order), skipping entries without a usable `hash` string.  A winner
is returned only when its custom distance is within
`max_custom_distance_for_tiebreak`; an over-threshold winner or no winner
at all is a global failure (`none`). -/
def tiebreakResult (input_hash_hex_str : String) (tied_on_hamming : List CardEntry)
    (max_custom_distance_for_tiebreak : ℕ) : Option MatchResult :=
  let r := tied_on_hamming.foldl
    (bestStep (fun e => decide (e.hash = ""))
      (fun e => custom_hex_char_diff_distance input_hash_hex_str e.hash))
    (⊤, none)
  match r.2 with
  | some tiebreak_winner =>
    if r.1 ≤ (max_custom_distance_for_tiebreak : WithTop ℕ) then
      some ⟨tiebreak_winner, Metric.tiebreak, r.1⟩
    else none
  | none => none

/-- `find_matching_card_with_tiebreak` from find_similar_cardV2.py, after the
query image has been hashed into its bit vector `input_hash_obj` and hex
string `input_hash_hex_str`.  Control flow of the source: empty catalog →
`None`; minimal Hamming distance above `max_hamming_distance` → `None`; a
unique minimal entry is returned with the Hamming metric; on a tie, the
custom hex-digit distance picks the winner (see `tiebreakResult`). -/
def find_matching_card_with_tiebreak (input_hash_obj : List Bool) (input_hash_hex_str : String)
    (hashed_data : List CardEntry) (max_hamming_distance : ℕ)
    (max_custom_distance_for_tiebreak : ℕ) : Option MatchResult :=
  if hashed_data.isEmpty then none
  else if (max_hamming_distance : WithTop ℕ) < minHammingDist input_hash_obj hashed_data then
    none
  else
    match tiedOnHamming input_hash_obj hashed_data with
    | [] => none
    | [e] => some ⟨e, Metric.hamming, minHammingDist input_hash_obj hashed_data⟩
    | a :: b :: rest =>
      tiebreakResult input_hash_hex_str (a :: b :: rest) max_custom_distance_for_tiebreak

/-! ## Corner ordering (card_warper.py) -/

/-- A 2D point; the float coordinates of the source are modelled exactly by
integers (all claim-relevant arithmetic on them is exact). -/
structure Pt where
  x : ℤ
  y : ℤ
deriving DecidableEq, Repr

/-- `np.argmin` over the four values `f 0, f 1, f 2, f 3`: the first index
attaining the minimum (the running best is replaced only on strict
improvement). -/
def argmin4 (f : Fin 4 → ℤ) : Fin 4 :=
  let i1 : Fin 4 := if f 1 < f 0 then 1 else 0
  let i2 : Fin 4 := if f 2 < f i1 then 2 else i1
  if f 3 < f i2 then 3 else i2

/-- `np.argmax` over the four values: first index attaining the maximum. -/
def argmax4 (f : Fin 4 → ℤ) : Fin 4 :=
  let i1 : Fin 4 := if f 0 < f 1 then 1 else 0
  let i2 : Fin 4 := if f i1 < f 2 then 2 else i1
  if f i2 < f 3 then 3 else i2

/-- `s = points.sum(axis=1)`: per-point coordinate sum `x + y`. -/
def sumXY (points : Fin 4 → Pt) (i : Fin 4) : ℤ :=
  (points i).x + (points i).y

/-- `diff = np.diff(points, axis=1)`: per-point difference along axis 1,
which for a row `[x, y]` is `y - x` (not `x - y`). -/
def diffYX (points : Fin 4 → Pt) (i : Fin 4) : ℤ :=
  (points i).y - (points i).x

/-- The spec-facing difference `x - y` used to state the corner rule. -/
def diffXY (points : Fin 4 → Pt) (i : Fin 4) : ℤ :=
  (points i).x - (points i).y

/-- `reorder_corners` from card_warper.py on a 4×2 array: slot 0 (top-left)
takes `points[np.argmin(s)]`, slot 2 (bottom-right) `points[np.argmax(s)]`,
slot 1 (top-right) `points[np.argmin(diff)]` and slot 3 (bottom-left)
`points[np.argmax(diff)]`, with `diff` the axis-1 difference `y - x`. -/
def reorder_corners (points : Fin 4 → Pt) : Fin 4 → Pt := fun j =>
  if j = 0 then points (argmin4 (sumXY points))
  else if j = 1 then points (argmin4 (diffYX points))
  else if j = 2 then points (argmax4 (sumXY points))
  else points (argmax4 (diffYX points))

/-! ## Perspective normalization (card_warper.py) -/

/-- `POKEMON_CARD_STD_WIDTH = 250`. -/
def POKEMON_CARD_STD_WIDTH : ℕ := 250

/-- `POKEMON_CARD_STD_HEIGHT = int(POKEMON_CARD_STD_WIDTH /
POKEMON_CARD_STD_ASPECT_RATIO)` with the aspect value `6.3 / 8.8 = 63/88`:
`int` truncates the positive quotient `250 / (63/88) = 250·88/63`, which is
exact natural floor division (`349`, agreeing with the float computation of
the source). -/
def POKEMON_CARD_STD_HEIGHT : ℕ := POKEMON_CARD_STD_WIDTH * 88 / 63

/-- A raster image, reduced to its buffer dimensions (pixel content plays no
role in any claim about the warper, which only fixes the output size). -/
structure Image where
  height : ℕ
  width : ℕ
deriving DecidableEq, Repr

/-- Squared Euclidean distance between two corners, an exact natural. -/
def sqDist (a b : Pt) : ℕ :=
  ((a.x - b.x).natAbs) ^ 2 + ((a.y - b.y).natAbs) ^ 2

/-- Exact decision of `m + √U > n + √V` for naturals, by the usual
squaring case analysis (both sides are nonnegative reals). -/
def gtAddSqrt (m U n V : ℕ) : Bool :=
  if n ≤ m then
    let k : ℕ := m - n
    let R : ℤ := (V : ℤ) - (U : ℤ) - (k : ℤ) ^ 2
    if R < 0 then true
    else if R = 0 then decide (0 < k ∧ 0 < U)
    else decide (R ^ 2 < 4 * (k : ℤ) ^ 2 * (U : ℤ))
  else
    let k : ℕ := n - m
    let L : ℤ := (U : ℤ) - (V : ℤ) - (k : ℤ) ^ 2
    decide (0 < L ∧ 4 * (k : ℤ) ^ 2 * (V : ℤ) < L ^ 2)

/-- Exact decision of `√a + √b > √c + √d` for naturals: squaring the
(nonnegative) sides reduces it to `(a+b) + √(4ab) > (c+d) + √(4cd)`.  This
decides the source's floating-point comparison `avg_width > avg_height` of
averaged Euclidean edge lengths by its exact real value (the common factor
½ cancels). -/
def sqrtSumGt (a b c d : ℕ) : Bool :=
  gtAddSqrt (a + b) (4 * a * b) (c + d) (4 * c * d)

/-- The canonical destination corners `(0,0), (w-1,0), (w-1,h-1), (0,h-1)`
built for `cv2.getPerspectiveTransform`. -/
def dstCorners (target_w target_h : ℕ) : Fin 4 → Pt := fun j =>
  if j = 0 then ⟨0, 0⟩
  else if j = 1 then ⟨(target_w : ℤ) - 1, 0⟩
  else if j = 2 then ⟨(target_w : ℤ) - 1, (target_h : ℤ) - 1⟩
  else ⟨0, (target_h : ℤ) - 1⟩

/-- Three points are collinear iff the cross product of the spanned edge
vectors vanishes. -/
def collinear3 (a b c : Pt) : Bool :=
  decide ((b.x - a.x) * (c.y - a.y) - (b.y - a.y) * (c.x - a.x) = 0)

/-- Some three of the four corners are collinear (this includes repeated
corners): the degenerate configurations for a projective transform. -/
def hasDegenerateTriple (p : Fin 4 → Pt) : Bool :=
  collinear3 (p 0) (p 1) (p 2) || collinear3 (p 0) (p 1) (p 3) ||
  collinear3 (p 0) (p 2) (p 3) || collinear3 (p 1) (p 2) (p 3)

/-- Modelled from the spec: `cv2.getPerspectiveTransform` is external; the
spec stipulates that a numerically singular transform arises from
degenerate/collinear corners and must turn into an explicit failure (the
source wraps the call in try/except and returns `None`).  We model the
solve as failing exactly when some three source corners are collinear; the
matrix itself is irrelevant to every claim and is modelled as a unit
token. -/
def getPerspectiveTransform (src : Fin 4 → Pt) (_dst : Fin 4 → Pt) : Option Unit :=
  if hasDegenerateTriple src then none else some ()

/-- Modelled from the spec: `cv2.warpPerspective(image, M, (target_w,
target_h))` resamples the source image through the transform into a buffer
of exactly `(target_w, target_h)` (width × height). -/
def warpPerspective (_image : Image) (_m : Unit) (size : ℕ × ℕ) : Image :=
  ⟨size.2, size.1⟩

/-- `np.array(points).reshape(4, 2)` conversion performed inside
`reorder_corners`: succeeds exactly on four rows of two coordinates;
anything else raises `ValueError` (here `none`). -/
def toCorners4 : List (List ℤ) → Option (Fin 4 → Pt)
  | [[x0, y0], [x1, y1], [x2, y2], [x3, y3]] =>
    some (fun j =>
      if j = 0 then ⟨x0, y0⟩
      else if j = 1 then ⟨x1, y1⟩
      else if j = 2 then ⟨x2, y2⟩
      else ⟨x3, y3⟩)
  | _ => none

/-- `warp_card_to_standard_ratio` from card_warper.py.  `None` inputs or a
corner count other than 4 fail fast; a corner array not convertible to 4×2
makes `reorder_corners` raise `ValueError`, which is caught (`none`); then
the averaged top/bottom edge lengths are compared with the averaged
left/right ones to pick portrait or landscape target dimensions, and the
perspective transform is solved (singular → caught exception → `none`). -/
def warp_card_to_standard_ratio (image : Option Image)
    (corners_on_original_image : Option (List (List ℤ))) : Option Image :=
  match image, corners_on_original_image with
  | none, _ => none
  | _, none => none
  | some img, some corners =>
    if corners.length ≠ 4 then none
    else
      match toCorners4 corners with
      | none => none
      | some pts =>
        let ordered := reorder_corners pts
        let width_top_sq := sqDist (ordered 1) (ordered 0)
        let width_bottom_sq := sqDist (ordered 2) (ordered 3)
        let height_left_sq := sqDist (ordered 3) (ordered 0)
        let height_right_sq := sqDist (ordered 2) (ordered 1)
        let landscape := sqrtSumGt width_top_sq width_bottom_sq height_left_sq height_right_sq
        let target_w := if landscape then POKEMON_CARD_STD_HEIGHT else POKEMON_CARD_STD_WIDTH
        let target_h := if landscape then POKEMON_CARD_STD_WIDTH else POKEMON_CARD_STD_HEIGHT
        match getPerspectiveTransform ordered (dstCorners target_w target_h) with
        | none => none
        | some transform_matrix => some (warpPerspective img transform_matrix (target_w, target_h))

/-! ## Contour candidate extraction (detect_card_test.py, detect_card.py) -/

/-- Modelled from the spec: the OpenCV vision primitives used by the
extractors are external collaborators.  `contoursOf` stands for the whole
pre-processing front end applied to the processed (resized) frame
(grayscale, blur/equalize, edge detection, morphological closing,
`cv2.findContours` with external retrieval); the remaining fields model
`cv2.contourArea`, `cv2.arcLength`, `cv2.approxPolyDP`, `cv2.boundingRect`
(as `(x, y, w, h)`), the eccentricity obtained from `cv2.fitEllipse` for a
contour of at least 5 points (including the axis swap, zero-major guard and
square root of the source, all driven by external fit data), and
`cv2.convexHull`.  Float values are modelled as exact rationals. -/
structure CvOracle where
  contoursOf : Image → List (List Pt)
  contourArea : List Pt → ℚ
  arcLength : List Pt → ℚ
  approxPolyDP : List Pt → ℚ → List Pt
  boundingRect : List Pt → ℤ × ℤ × ℕ × ℕ
  fitEllipseEcc : List Pt → ℚ
  convexHull : List Pt → List Pt

/-- `MIN_ECCENTRICITY = 0.65`. -/
def MIN_ECCENTRICITY : ℚ := 65 / 100

/-- `MAX_ECCENTRICITY = 0.99`. -/
def MAX_ECCENTRICITY : ℚ := 99 / 100

/-- `MIN_CONVEXITY_RATIO = 0.92` (renamed to satisfy naming limits). -/
def MIN_CONVEXITY : ℚ := 92 / 100

/-- `POKEMON_CARD_ASPECT_RATIO_PORTRAIT = 6.3 / 8.8` as an exact rational. -/
def ASPECT_PORTRAIT : ℚ := (63 / 10) / (88 / 10)

/-- `POKEMON_CARD_ASPECT_RATIO_LANDSCAPE = 8.8 / 6.3` as an exact rational. -/
def ASPECT_LANDSCAPE : ℚ := (88 / 10) / (63 / 10)

/-- `ASPECT_RATIO_TOLERANCE = 0.18`. -/
def ASPECT_RATIO_TOLERANCE : ℚ := 18 / 100

/-- `calculate_eccentricity` from detect_card_test.py: a contour with fewer
than 5 points cannot support `cv2.fitEllipse` and is given eccentricity `0`
outright; otherwise the ellipse-fit value (external, see `CvOracle`) is
used. -/
def calculate_eccentricity (o : CvOracle) (contour : List Pt) : ℚ :=
  if contour.length < 5 then 0 else o.fitEllipseEcc contour

/-- `calculate_convexity_ratio` from detect_card_test.py: fewer than 3
points → `0`; a zero hull perimeter → `0`; otherwise contour perimeter
divided by convex-hull perimeter. -/
def calculate_convexity (o : CvOracle) (contour : List Pt) : ℚ :=
  if contour.length < 3 then 0
  else
    let hull := o.convexHull contour
    let contour_perimeter := o.arcLength contour
    let hull_perimeter := o.arcLength hull
    if hull_perimeter = 0 then 0 else contour_perimeter / hull_perimeter

/-- Truncation toward zero of a rational, as `numpy`'s `astype(int32)`
performs on the scaled-back corner coordinates. -/
def ratTrunc (q : ℚ) : ℤ := Int.tdiv q.num (q.den : ℤ)

/-- Dimensions `(height, width)` of the processed frame: when a (truthy)
`resize_height` is given the image is resized to that height preserving
aspect ratio (`int` truncation on the width), otherwise kept as is. -/
def processedDims (img : Image) (resize_height : ℕ) : ℕ × ℕ :=
  if resize_height ≠ 0 then
    (resize_height, (ratTrunc ((img.width : ℚ) * (resize_height : ℚ) / (img.height : ℚ))).toNat)
  else (img.height, img.width)

/-- The body of the per-contour loop of `detect_enhanced_card_contours`:
each rejecting filter `continue`s (here `none`), in source order — area
window, 4-vertex polygon approximation (epsilon `0.03 × perimeter`),
bounding-box aspect ratio near portrait or landscape, ellipse-fit
eccentricity window, convexity ratio floor — and an accepted contour
contributes its approximated corners rescaled by `1/scale` and truncated to
integers. -/
def perContour (o : CvOracle) (min_contour_area max_contour_area : ℚ) (scale : ℚ)
    (cnt : List Pt) : Option (List Pt) :=
  let area := o.contourArea cnt
  if ¬(min_contour_area < area ∧ area < max_contour_area) then none
  else
    let peri := o.arcLength cnt
    let approx_corners := o.approxPolyDP cnt ((3 / 100) * peri)
    if approx_corners.length ≠ 4 then none
    else
      let w_br := (o.boundingRect approx_corners).2.2.1
      let h_br := (o.boundingRect approx_corners).2.2.2
      if h_br = 0 then none
      else
        let aspect_r_br : ℚ := (w_br : ℚ) / (h_br : ℚ)
        let is_portrait := ASPECT_PORTRAIT * (1 - ASPECT_RATIO_TOLERANCE) < aspect_r_br ∧
          aspect_r_br < ASPECT_PORTRAIT * (1 + ASPECT_RATIO_TOLERANCE)
        let is_landscape := ASPECT_LANDSCAPE * (1 - ASPECT_RATIO_TOLERANCE) < aspect_r_br ∧
          aspect_r_br < ASPECT_LANDSCAPE * (1 + ASPECT_RATIO_TOLERANCE)
        if ¬(is_portrait ∨ is_landscape) then none
        else
          let eccentricity := calculate_eccentricity o cnt
          if ¬(MIN_ECCENTRICITY < eccentricity ∧ eccentricity < MAX_ECCENTRICITY) then none
          else
            let convexity_r := calculate_convexity o cnt
            if convexity_r < MIN_CONVEXITY then none
            else
              some (approx_corners.map (fun p =>
                (⟨ratTrunc ((p.x : ℚ) / scale), ratTrunc ((p.y : ℚ) / scale)⟩ : Pt)))

/-- `detect_enhanced_card_contours` from detect_card_test.py.  An invalid
(`None`) input image prints an error and returns `([], None)`; a valid
image is resized for processing, its contours are filtered by
`perContour`, and the second component is the processed debug image (an
actual buffer, never `None`) with the surviving contours drawn (drawing
does not change its dimensions). -/
def detect_enhanced_card_contours (o : CvOracle) (image_bgr : Option Image)
    (resize_height : ℕ) : List (List Pt) × Option Image :=
  match image_bgr with
  | none => ([], none)
  | some img =>
    let pd := processedDims img resize_height
    let processed_image : Image := ⟨pd.1, pd.2⟩
    let scale : ℚ := if resize_height ≠ 0 then (resize_height : ℚ) / (img.height : ℚ) else 1
    let min_contour_area : ℚ := (8 / 1000) * (pd.1 : ℚ) * (pd.2 : ℚ)
    let max_contour_area : ℚ := (6 / 10) * (pd.1 : ℚ) * (pd.2 : ℚ)
    let contours := o.contoursOf processed_image
    (contours.filterMap (perContour o min_contour_area max_contour_area scale),
      some processed_image)

/-- `detect_card_boxes` from detect_card.py: a missing/undecodable image
prints an error and bare-`return`s `None`; otherwise the image is resized
to height 1000 and contours passing the area window `(250, h·w)` whose
polygon approximation (epsilon `0.02 × perimeter`) has exactly 4 vertices
are collected. -/
def detect_card_boxes (o : CvOracle) (image : Option Image) : Option (List (List Pt)) :=
  match image with
  | none => none
  | some img =>
    let pd := processedDims img 1000
    let processed_image : Image := ⟨pd.1, pd.2⟩
    let min_area : ℚ := 250
    let max_area : ℚ := 1 * (pd.1 : ℚ) * (pd.2 : ℚ)
    some ((o.contoursOf processed_image).filterMap (fun cnt =>
      let area := o.contourArea cnt
      if area < min_area ∨ area > max_area then none
      else
        let approx := o.approxPolyDP cnt ((2 / 100) * o.arcLength cnt)
        if approx.length = 4 then some approx else none))

/-! ## Helper lemmas -/

theorem fin4_cases (j : Fin 4) : j = 0 ∨ j = 1 ∨ j = 2 ∨ j = 3 := by
  revert j; decide

theorem custom_hex_top (s1 s2 : String) (h : s1.length ≠ s2.length) :
    custom_hex_char_diff_distance s1 s2 = ⊤ := by
  unfold custom_hex_char_diff_distance
  exact if_pos h

theorem length_ne_of_ne_empty (s t : String) (hs : s ≠ ("")) (ht : t = ("")) :
    s.length ≠ t.length := by
  subst ht
  intro hlen
  apply hs
  cases s with
  | mk data =>
    have : data.length = 0 := hlen
    have hdata : data = [] := List.length_eq_zero.mp this
    rw [hdata]

theorem isEmpty_false_of_ne_nil {α : Type} (l : List α) (h : l ≠ []) : l.isEmpty = false := by
  cases l with
  | nil => exact absurd rfl h
  | cons a t => rfl

/-! ## Claim C9 -/

/-- Claim C9: two fingerprints of differing length are never treated as a
match — the secondary hex-digit distance of any two hex strings of unequal
length is infinity, which is never below (or at) any finite threshold. -/
theorem custom_distance_infinite_on_length_mismatch (s1 s2 : String)
    (h : s1.length ≠ s2.length) :
    custom_hex_char_diff_distance s1 s2 = ⊤ ∧
    ∀ T : ℕ, ¬ custom_hex_char_diff_distance s1 s2 ≤ (T : WithTop ℕ) := by
  have he := custom_hex_top s1 s2 h
  refine ⟨he, ?_⟩
  intro T hle
  rw [he] at hle
  exact WithTop.coe_ne_top (top_le_iff.mp hle)

/-- Witness for C9 at the concrete pair "ab" / "a". -/
theorem custom_distance_infinite_on_length_mismatch_witness :
    (("ab") : String).length ≠ (("a") : String).length ∧
    (custom_hex_char_diff_distance ("ab") ("a") = ⊤ ∧
      ∀ T : ℕ, ¬ custom_hex_char_diff_distance ("ab") ("a") ≤ (T : WithTop ℕ)) :=
  ⟨by decide, custom_distance_infinite_on_length_mismatch ("ab") ("a") (by decide)⟩

/-! ## Claim C2 -/

theorem minHamming_fold_gt (q : List Bool) (T1 : ℕ) :
    ∀ (l : List CardEntry) (m : WithTop ℕ),
    (∀ e ∈ l, (T1 : WithTop ℕ) < ((hammingDistance q e.hash_obj : ℕ) : WithTop ℕ)) →
    (T1 : WithTop ℕ) < m →
    (T1 : WithTop ℕ) < l.foldl
      (fun m e => if e.hash_obj.isEmpty then m
        else min m ((hammingDistance q e.hash_obj : ℕ) : WithTop ℕ)) m := by
  intro l
  induction l with
  | nil => intro m _ hm; exact hm
  | cons a t ih =>
    intro m hall hm
    rw [List.foldl_cons]
    apply ih
    · intro e he; exact hall e (List.mem_cons_of_mem a he)
    · by_cases ha : a.hash_obj.isEmpty
      · rw [if_pos ha]; exact hm
      · rw [if_neg ha]
        exact lt_min hm (hall a (List.mem_cons_self a t))

/-- Claim C2: whenever every catalog entry's Hamming distance to the query
exceeds the primary threshold T1 (so the minimum does), the tie-break
matcher returns the explicit no-match value `none`, for any non-empty
catalog and regardless of the tie-break threshold T2. -/
theorem tiebreak_matcher_no_match_above_T1 (q : List Bool) (qhex : String)
    (data : List CardEntry) (T1 T2 : ℕ) (hne : data ≠ [])
    (hfar : ∀ e ∈ data, (T1 : WithTop ℕ) < ((hammingDistance q e.hash_obj : ℕ) : WithTop ℕ)) :
    find_matching_card_with_tiebreak q qhex data T1 T2 = none := by
  have hlt : (T1 : WithTop ℕ) < minHammingDist q data :=
    minHamming_fold_gt q T1 data ⊤ hfar (WithTop.coe_lt_top T1)
  unfold find_matching_card_with_tiebreak
  split_ifs with h1 <;> rfl

/-- Witness for C2: a one-entry catalog at Hamming distance 1 with T1 = 0. -/
theorem tiebreak_matcher_no_match_above_T1_witness :
    (([(⟨("a"), ("A"), ("00"), [false]⟩ : CardEntry)] : List CardEntry) ≠ [] ∧
      (∀ e ∈ ([(⟨("a"), ("A"), ("00"), [false]⟩ : CardEntry)] : List CardEntry),
        ((0 : ℕ) : WithTop ℕ) < ((hammingDistance [true] e.hash_obj : ℕ) : WithTop ℕ))) ∧
    find_matching_card_with_tiebreak [true] ("ab")
      [(⟨("a"), ("A"), ("00"), [false]⟩ : CardEntry)] 0 7 = none :=
  ⟨⟨by decide, by decide⟩,
    tiebreak_matcher_no_match_above_T1 [true] ("ab")
      [(⟨("a"), ("A"), ("00"), [false]⟩ : CardEntry)] 0 7 (by decide) (by decide)⟩

/-! ## Claim C7 -/

/-- Claim C7: a missing/undecodable input image (`None`) makes
`detect_enhanced_card_contours` return the error sentinel `([], None)`,
whose debug component differs from every valid-image result (which always
carries an actual processed image), and makes `detect_card_boxes` return
`None`, never equal to a valid image's `some` detection list; so the input
error is surfaced and is never mistaken for zero detections on a valid
image. -/
theorem input_error_never_zero_detections (o : CvOracle) (resize_height : ℕ) :
    detect_enhanced_card_contours o none resize_height = ([], none) ∧
    (∀ img : Image, (detect_enhanced_card_contours o (some img) resize_height).2 ≠ none) ∧
    (∀ img : Image,
      detect_enhanced_card_contours o none resize_height ≠
        detect_enhanced_card_contours o (some img) resize_height) ∧
    detect_card_boxes o none = none ∧
    (∀ img : Image, detect_card_boxes o (some img) ≠ none) := by
  refine ⟨rfl, ?_, ?_, rfl, ?_⟩
  · intro img h
    simp [detect_enhanced_card_contours] at h
  · intro img h
    have h2 := congrArg Prod.snd h
    simp [detect_enhanced_card_contours] at h2
  · intro img h
    simp [detect_card_boxes] at h

/-! ## Claim C8 -/

/-- Claim C8: a contour with fewer than 5 points has eccentricity exactly 0,
0 fails the eccentricity window (its lower bound `MIN_ECCENTRICITY = 0.65`
is positive), and consequently the per-contour filter chain of the enhanced
extractor rejects every such contour (totally — no error is raised). -/
theorem small_contour_rejected_by_eccentricity (o : CvOracle) (cnt : List Pt)
    (h : cnt.length < 5) :
    calculate_eccentricity o cnt = 0 ∧
    ¬(MIN_ECCENTRICITY < calculate_eccentricity o cnt ∧
        calculate_eccentricity o cnt < MAX_ECCENTRICITY) ∧
    (∀ min_contour_area max_contour_area scale : ℚ,
      perContour o min_contour_area max_contour_area scale cnt = none) := by
  have h0 : calculate_eccentricity o cnt = 0 := by
    unfold calculate_eccentricity; exact if_pos h
  have hcond : ¬(MIN_ECCENTRICITY < calculate_eccentricity o cnt ∧
      calculate_eccentricity o cnt < MAX_ECCENTRICITY) := by
    rw [h0]
    rintro ⟨h1, -⟩
    norm_num [MIN_ECCENTRICITY] at h1
  refine ⟨h0, hcond, ?_⟩
  intro mA MA sc
  simp only [perContour]
  split_ifs with g1 g2 g3 g4 <;> rfl

/-- Witness for C8: a 4-point contour, with an oracle whose measurements
pass every earlier filter, is rejected (the eccentricity filter is what
kills it). -/
theorem small_contour_rejected_by_eccentricity_witness :
    ([(⟨0, 0⟩ : Pt), ⟨9, 0⟩, ⟨9, 12⟩, ⟨0, 12⟩].length < 5) ∧
    (calculate_eccentricity
        ⟨fun _ => [], fun _ => 100, fun _ => 40, fun c _ => c, fun _ => (0, 0, 63, 88),
          fun _ => 9 / 10, fun c => c⟩
        [(⟨0, 0⟩ : Pt), ⟨9, 0⟩, ⟨9, 12⟩, ⟨0, 12⟩] = 0 ∧
      ¬(MIN_ECCENTRICITY <
          calculate_eccentricity
            ⟨fun _ => [], fun _ => 100, fun _ => 40, fun c _ => c, fun _ => (0, 0, 63, 88),
              fun _ => 9 / 10, fun c => c⟩
            [(⟨0, 0⟩ : Pt), ⟨9, 0⟩, ⟨9, 12⟩, ⟨0, 12⟩] ∧
          calculate_eccentricity
            ⟨fun _ => [], fun _ => 100, fun _ => 40, fun c _ => c, fun _ => (0, 0, 63, 88),
              fun _ => 9 / 10, fun c => c⟩
            [(⟨0, 0⟩ : Pt), ⟨9, 0⟩, ⟨9, 12⟩, ⟨0, 12⟩] < MAX_ECCENTRICITY) ∧
      (∀ min_contour_area max_contour_area scale : ℚ,
        perContour
          ⟨fun _ => [], fun _ => 100, fun _ => 40, fun c _ => c, fun _ => (0, 0, 63, 88),
            fun _ => 9 / 10, fun c => c⟩
          min_contour_area max_contour_area scale
          [(⟨0, 0⟩ : Pt), ⟨9, 0⟩, ⟨9, 12⟩, ⟨0, 12⟩] = none)) :=
  ⟨by decide,
    small_contour_rejected_by_eccentricity
      ⟨fun _ => [], fun _ => 100, fun _ => 40, fun c _ => c, fun _ => (0, 0, 63, 88),
        fun _ => 9 / 10, fun c => c⟩
      [(⟨0, 0⟩ : Pt), ⟨9, 0⟩, ⟨9, 12⟩, ⟨0, 12⟩] (by decide)⟩

/-! ## Claim C5 -/

/-- Claim C5: the perspective normalizer returns the explicit failure value
`none` (rather than propagating an exception) whenever the image is
missing, the corners are missing, the corner count differs from 4, the
corners are not convertible to a 4×2 array, or the perspective transform is
singular (some three of the ordered corners collinear). -/
theorem warp_explicit_failure_modes (image : Option Image)
    (corners : Option (List (List ℤ)))
    (h : image = none ∨ corners = none ∨
      (∃ l, corners = some l ∧ l.length ≠ 4) ∨
      (∃ l, corners = some l ∧ toCorners4 l = none) ∨
      (∃ l pts, corners = some l ∧ toCorners4 l = some pts ∧
        hasDegenerateTriple (reorder_corners pts) = true)) :
    warp_card_to_standard_ratio image corners = none := by
  rcases h with rfl | rfl | ⟨l, rfl, hlen⟩ | ⟨l, rfl, hconv⟩ | ⟨l, pts, rfl, hpts, hdeg⟩
  · cases corners <;> rfl
  · cases image <;> rfl
  · cases image with
    | none => rfl
    | some img =>
      simp only [warp_card_to_standard_ratio]
      rw [if_pos hlen]
  · cases image with
    | none => rfl
    | some img =>
      simp only [warp_card_to_standard_ratio]
      split_ifs with h4
      · rfl
      · rw [hconv]
  · cases image with
    | none => rfl
    | some img =>
      simp only [warp_card_to_standard_ratio]
      split_ifs with h4
      · rfl
      · rw [hpts]
        simp only [getPerspectiveTransform, hdeg, if_true]

/-- Witness for C5: a valid image with four collinear corners fails with
`none` through the singular-transform mode. -/
theorem warp_explicit_failure_modes_witness :
    ((some ⟨10, 10⟩ : Option Image) = none ∨
      (some [[0, 0], [1, 1], [2, 2], [3, 3]] : Option (List (List ℤ))) = none ∨
      (∃ l, (some [[0, 0], [1, 1], [2, 2], [3, 3]] : Option (List (List ℤ))) = some l ∧
        l.length ≠ 4) ∨
      (∃ l, (some [[0, 0], [1, 1], [2, 2], [3, 3]] : Option (List (List ℤ))) = some l ∧
        toCorners4 l = none) ∨
      (∃ l pts, (some [[0, 0], [1, 1], [2, 2], [3, 3]] : Option (List (List ℤ))) = some l ∧
        toCorners4 l = some pts ∧ hasDegenerateTriple (reorder_corners pts) = true)) ∧
    warp_card_to_standard_ratio (some ⟨10, 10⟩) (some [[0, 0], [1, 1], [2, 2], [3, 3]]) =
      none := by
  have hd : (∃ l pts,
      (some [[0, 0], [1, 1], [2, 2], [3, 3]] : Option (List (List ℤ))) = some l ∧
      toCorners4 l = some pts ∧ hasDegenerateTriple (reorder_corners pts) = true) := by
    refine ⟨[[0, 0], [1, 1], [2, 2], [3, 3]],
      fun j => if j = 0 then ⟨0, 0⟩ else if j = 1 then ⟨1, 1⟩
        else if j = 2 then ⟨2, 2⟩ else ⟨3, 3⟩, rfl, by decide, by decide⟩
  exact ⟨Or.inr (Or.inr (Or.inr (Or.inr hd))),
    warp_explicit_failure_modes (some ⟨10, 10⟩) (some [[0, 0], [1, 1], [2, 2], [3, 3]])
      (Or.inr (Or.inr (Or.inr (Or.inr hd))))⟩

/-! ## Corner-ordering lemmas (claims C3, C6) -/

theorem argmin4_eq (f : Fin 4 → ℤ) (i : Fin 4) (h : ∀ j, j ≠ i → f i < f j) :
    argmin4 f = i := by
  rcases fin4_cases i with rfl | rfl | rfl | rfl <;>
  · have h0 := fun hh => h 0 hh
    have h1 := fun hh => h 1 hh
    have h2 := fun hh => h 2 hh
    have h3 := fun hh => h 3 hh
    simp only [argmin4]
    split_ifs <;> first
      | rfl
      | (exfalso
         first
           | exact absurd (h1 (by decide)) (by omega)
           | exact absurd (h2 (by decide)) (by omega)
           | exact absurd (h3 (by decide)) (by omega)
           | exact absurd (h0 (by decide)) (by omega))

theorem argmax4_eq (f : Fin 4 → ℤ) (i : Fin 4) (h : ∀ j, j ≠ i → f j < f i) :
    argmax4 f = i := by
  rcases fin4_cases i with rfl | rfl | rfl | rfl <;>
  · have h0 := fun hh => h 0 hh
    have h1 := fun hh => h 1 hh
    have h2 := fun hh => h 2 hh
    have h3 := fun hh => h 3 hh
    simp only [argmax4]
    split_ifs <;> first
      | rfl
      | (exfalso
         first
           | exact absurd (h1 (by decide)) (by omega)
           | exact absurd (h2 (by decide)) (by omega)
           | exact absurd (h3 (by decide)) (by omega)
           | exact absurd (h0 (by decide)) (by omega))

theorem argmin4_min (f : Fin 4 → ℤ) :
    f (argmin4 f) ≤ f 0 ∧ f (argmin4 f) ≤ f 1 ∧ f (argmin4 f) ≤ f 2 ∧ f (argmin4 f) ≤ f 3 := by
  simp only [argmin4]
  split_ifs <;> exact ⟨by omega, by omega, by omega, by omega⟩

theorem argmax4_max (f : Fin 4 → ℤ) :
    f 0 ≤ f (argmax4 f) ∧ f 1 ≤ f (argmax4 f) ∧ f 2 ≤ f (argmax4 f) ∧ f 3 ≤ f (argmax4 f) := by
  simp only [argmax4]
  split_ifs <;> exact ⟨by omega, by omega, by omega, by omega⟩

theorem argmin4_spec (f : Fin 4 → ℤ) (j : Fin 4) : f (argmin4 f) ≤ f j := by
  obtain ⟨a0, a1, a2, a3⟩ := argmin4_min f
  rcases fin4_cases j with rfl | rfl | rfl | rfl
  exacts [a0, a1, a2, a3]

theorem argmax4_spec (f : Fin 4 → ℤ) (j : Fin 4) : f j ≤ f (argmax4 f) := by
  obtain ⟨a0, a1, a2, a3⟩ := argmax4_max f
  rcases fin4_cases j with rfl | rfl | rfl | rfl
  exacts [a0, a1, a2, a3]

theorem reorder_corners_eval (points : Fin 4 → Pt) :
    reorder_corners points 0 = points (argmin4 (sumXY points)) ∧
    reorder_corners points 1 = points (argmin4 (diffYX points)) ∧
    reorder_corners points 2 = points (argmax4 (sumXY points)) ∧
    reorder_corners points 3 = points (argmax4 (diffYX points)) := by
  refine ⟨rfl, rfl, rfl, rfl⟩

theorem pick_sum_min (p q : Fin 4 → Pt) (b : Fin 4 → Fin 4) (t j0 : Fin 4)
    (hq : ∀ j, q j = p (b j)) (hj0 : b j0 = t)
    (huniq : ∀ j, j ≠ t → sumXY p t < sumXY p j) :
    q (argmin4 (sumXY q)) = p t := by
  have hsum_eq : ∀ j, sumXY q j = sumXY p (b j) := by
    intro j; simp [sumXY, hq j]
  have hatt : sumXY q (argmin4 (sumXY q)) ≤ sumXY q j0 := argmin4_spec (sumXY q) j0
  rw [hsum_eq, hsum_eq, hj0] at hatt
  by_cases hbt : b (argmin4 (sumXY q)) = t
  · rw [hq, hbt]
  · exact absurd hatt (not_le.mpr (huniq _ hbt))

theorem pick_sum_max (p q : Fin 4 → Pt) (b : Fin 4 → Fin 4) (t j0 : Fin 4)
    (hq : ∀ j, q j = p (b j)) (hj0 : b j0 = t)
    (huniq : ∀ j, j ≠ t → sumXY p j < sumXY p t) :
    q (argmax4 (sumXY q)) = p t := by
  have hsum_eq : ∀ j, sumXY q j = sumXY p (b j) := by
    intro j; simp [sumXY, hq j]
  have hatt : sumXY q j0 ≤ sumXY q (argmax4 (sumXY q)) := argmax4_spec (sumXY q) j0
  rw [hsum_eq, hsum_eq, hj0] at hatt
  by_cases hbt : b (argmax4 (sumXY q)) = t
  · rw [hq, hbt]
  · exact absurd hatt (not_le.mpr (huniq _ hbt))

theorem pick_diff_min (p q : Fin 4 → Pt) (b : Fin 4 → Fin 4) (t j0 : Fin 4)
    (hq : ∀ j, q j = p (b j)) (hj0 : b j0 = t)
    (huniq : ∀ j, j ≠ t → diffYX p t < diffYX p j) :
    q (argmin4 (diffYX q)) = p t := by
  have hdiff_eq : ∀ j, diffYX q j = diffYX p (b j) := by
    intro j; simp [diffYX, hq j]
  have hatt : diffYX q (argmin4 (diffYX q)) ≤ diffYX q j0 := argmin4_spec (diffYX q) j0
  rw [hdiff_eq, hdiff_eq, hj0] at hatt
  by_cases hbt : b (argmin4 (diffYX q)) = t
  · rw [hq, hbt]
  · exact absurd hatt (not_le.mpr (huniq _ hbt))

theorem pick_diff_max (p q : Fin 4 → Pt) (b : Fin 4 → Fin 4) (t j0 : Fin 4)
    (hq : ∀ j, q j = p (b j)) (hj0 : b j0 = t)
    (huniq : ∀ j, j ≠ t → diffYX p j < diffYX p t) :
    q (argmax4 (diffYX q)) = p t := by
  have hdiff_eq : ∀ j, diffYX q j = diffYX p (b j) := by
    intro j; simp [diffYX, hq j]
  have hatt : diffYX q j0 ≤ diffYX q (argmax4 (diffYX q)) := argmax4_spec (diffYX q) j0
  rw [hdiff_eq, hdiff_eq, hj0] at hatt
  by_cases hbt : b (argmax4 (diffYX q)) = t
  · rw [hq, hbt]
  · exact absurd hatt (not_le.mpr (huniq _ hbt))

/-! ## Claim C3 -/

/-- Counterexample to C3 as stated: on the rectangle (0,0), (2,0), (2,3),
(0,3), the unique minimizer of x−y is the point (0,3) (index 3), yet the
code's top-right slot (index 1 of the reordered output) is (2,0) ≠ (0,3):
the orderer does not put the point with minimal x−y at top-right (the
source's `np.diff` computes y−x, so top-right is the maximizer of x−y). -/
theorem reorder_corners_claimC3_counterexample :
    (∀ j : Fin 4, j ≠ 3 →
      diffXY (fun j => if j = 0 then (⟨0, 0⟩ : Pt) else if j = 1 then ⟨2, 0⟩
        else if j = 2 then ⟨2, 3⟩ else ⟨0, 3⟩) 3 <
      diffXY (fun j => if j = 0 then (⟨0, 0⟩ : Pt) else if j = 1 then ⟨2, 0⟩
        else if j = 2 then ⟨2, 3⟩ else ⟨0, 3⟩) j) ∧
    reorder_corners (fun j => if j = 0 then (⟨0, 0⟩ : Pt) else if j = 1 then ⟨2, 0⟩
      else if j = 2 then ⟨2, 3⟩ else ⟨0, 3⟩) 1 = ⟨2, 0⟩ ∧
    reorder_corners (fun j => if j = 0 then (⟨0, 0⟩ : Pt) else if j = 1 then ⟨2, 0⟩
      else if j = 2 then ⟨2, 3⟩ else ⟨0, 3⟩) 1 ≠
      (fun j => if j = 0 then (⟨0, 0⟩ : Pt) else if j = 1 then ⟨2, 0⟩
        else if j = 2 then ⟨2, 3⟩ else ⟨0, 3⟩) 3 := by
  decide

/-- Claim C3 (amended): with unique extremizers, the orderer assigns
top-left = the point with minimal x+y, bottom-right = maximal x+y,
top-right = the point with **maximal** x−y and bottom-left = the point with
**minimal** x−y (the source's `np.diff` along axis 1 is y−x, so its
argmin/argmax flip relative to x−y), returned in the order
(TL, TR, BR, BL). -/
theorem reorder_corners_sum_diff_rule (p : Fin 4 → Pt) (itl itr ibr ibl : Fin 4)
    (htl : ∀ j, j ≠ itl → sumXY p itl < sumXY p j)
    (hbr : ∀ j, j ≠ ibr → sumXY p j < sumXY p ibr)
    (htr : ∀ j, j ≠ itr → diffXY p j < diffXY p itr)
    (hbl : ∀ j, j ≠ ibl → diffXY p ibl < diffXY p j) :
    reorder_corners p 0 = p itl ∧ reorder_corners p 1 = p itr ∧
    reorder_corners p 2 = p ibr ∧ reorder_corners p 3 = p ibl := by
  have htr' : ∀ j, j ≠ itr → diffYX p itr < diffYX p j := by
    intro j hj
    have := htr j hj
    simp only [diffXY] at this
    simp only [diffYX]
    omega
  have hbl' : ∀ j, j ≠ ibl → diffYX p j < diffYX p ibl := by
    intro j hj
    have := hbl j hj
    simp only [diffXY] at this
    simp only [diffYX]
    omega
  obtain ⟨e0, e1, e2, e3⟩ := reorder_corners_eval p
  refine ⟨?_, ?_, ?_, ?_⟩
  · rw [e0, argmin4_eq (sumXY p) itl htl]
  · rw [e1, argmin4_eq (diffYX p) itr htr']
  · rw [e2, argmax4_eq (sumXY p) ibr hbr]
  · rw [e3, argmax4_eq (diffYX p) ibl hbl']

/-- Witness for the amended C3 on the rectangle (0,0), (2,0), (2,3), (0,3)
with TL at index 0, TR at 1, BR at 2, BL at 3. -/
theorem reorder_corners_sum_diff_rule_witness :
    ((∀ j : Fin 4, j ≠ 0 →
        sumXY (fun j => if j = 0 then (⟨0, 0⟩ : Pt) else if j = 1 then ⟨2, 0⟩
          else if j = 2 then ⟨2, 3⟩ else ⟨0, 3⟩) 0 <
        sumXY (fun j => if j = 0 then (⟨0, 0⟩ : Pt) else if j = 1 then ⟨2, 0⟩
          else if j = 2 then ⟨2, 3⟩ else ⟨0, 3⟩) j) ∧
      (∀ j : Fin 4, j ≠ 2 →
        sumXY (fun j => if j = 0 then (⟨0, 0⟩ : Pt) else if j = 1 then ⟨2, 0⟩
          else if j = 2 then ⟨2, 3⟩ else ⟨0, 3⟩) j <
        sumXY (fun j => if j = 0 then (⟨0, 0⟩ : Pt) else if j = 1 then ⟨2, 0⟩
          else if j = 2 then ⟨2, 3⟩ else ⟨0, 3⟩) 2)) ∧
    (reorder_corners (fun j => if j = 0 then (⟨0, 0⟩ : Pt) else if j = 1 then ⟨2, 0⟩
        else if j = 2 then ⟨2, 3⟩ else ⟨0, 3⟩) 0 =
      (fun j => if j = 0 then (⟨0, 0⟩ : Pt) else if j = 1 then ⟨2, 0⟩
        else if j = 2 then ⟨2, 3⟩ else ⟨0, 3⟩) 0 ∧
      reorder_corners (fun j => if j = 0 then (⟨0, 0⟩ : Pt) else if j = 1 then ⟨2, 0⟩
        else if j = 2 then ⟨2, 3⟩ else ⟨0, 3⟩) 1 =
      (fun j => if j = 0 then (⟨0, 0⟩ : Pt) else if j = 1 then ⟨2, 0⟩
        else if j = 2 then ⟨2, 3⟩ else ⟨0, 3⟩) 1 ∧
      reorder_corners (fun j => if j = 0 then (⟨0, 0⟩ : Pt) else if j = 1 then ⟨2, 0⟩
        else if j = 2 then ⟨2, 3⟩ else ⟨0, 3⟩) 2 =
      (fun j => if j = 0 then (⟨0, 0⟩ : Pt) else if j = 1 then ⟨2, 0⟩
        else if j = 2 then ⟨2, 3⟩ else ⟨0, 3⟩) 2 ∧
      reorder_corners (fun j => if j = 0 then (⟨0, 0⟩ : Pt) else if j = 1 then ⟨2, 0⟩
        else if j = 2 then ⟨2, 3⟩ else ⟨0, 3⟩) 3 =
      (fun j => if j = 0 then (⟨0, 0⟩ : Pt) else if j = 1 then ⟨2, 0⟩
        else if j = 2 then ⟨2, 3⟩ else ⟨0, 3⟩) 3) :=
  ⟨⟨by decide, by decide⟩,
    reorder_corners_sum_diff_rule
      (fun j => if j = 0 then (⟨0, 0⟩ : Pt) else if j = 1 then ⟨2, 0⟩
        else if j = 2 then ⟨2, 3⟩ else ⟨0, 3⟩) 0 1 2 3
      (by decide) (by decide) (by decide) (by decide)⟩

/-! ## Claim C6 -/

/-- Claim C6: with unique sum and diff extremizers, re-ordering an
already-ordered 4-point set is a fixed point: applying `reorder_corners`
twice equals applying it once. -/
theorem reorder_corners_idempotent (p : Fin 4 → Pt) (i1 i2 i3 i4 : Fin 4)
    (h1 : ∀ j, j ≠ i1 → sumXY p i1 < sumXY p j)
    (h2 : ∀ j, j ≠ i2 → sumXY p j < sumXY p i2)
    (h3 : ∀ j, j ≠ i3 → diffYX p i3 < diffYX p j)
    (h4 : ∀ j, j ≠ i4 → diffYX p j < diffYX p i4) :
    reorder_corners (reorder_corners p) = reorder_corners p := by
  set q := reorder_corners p with hqdef
  obtain ⟨e0, e1, e2, e3⟩ := reorder_corners_eval p
  have ha1 : argmin4 (sumXY p) = i1 := argmin4_eq (sumXY p) i1 h1
  have ha2 : argmax4 (sumXY p) = i2 := argmax4_eq (sumXY p) i2 h2
  have ha3 : argmin4 (diffYX p) = i3 := argmin4_eq (diffYX p) i3 h3
  have ha4 : argmax4 (diffYX p) = i4 := argmax4_eq (diffYX p) i4 h4
  have hq0 : q 0 = p i1 := by rw [hqdef, e0, ha1]
  have hq1 : q 1 = p i3 := by rw [hqdef, e1, ha3]
  have hq2 : q 2 = p i2 := by rw [hqdef, e2, ha2]
  have hq3 : q 3 = p i4 := by rw [hqdef, e3, ha4]
  have hq : ∀ j, q j = p ((fun j => if j = 0 then i1 else if j = 1 then i3
      else if j = 2 then i2 else i4) j) := by
    intro j
    rcases fin4_cases j with rfl | rfl | rfl | rfl <;>
      simp [hq0, hq1, hq2, hq3]
  obtain ⟨f0, f1, f2, f3⟩ := reorder_corners_eval q
  funext j
  rcases fin4_cases j with rfl | rfl | rfl | rfl
  · rw [f0, hq0]
    exact pick_sum_min p q _ i1 0 hq (by simp) h1
  · rw [f1, hq1]
    exact pick_diff_min p q _ i3 1 hq (by simp) h3
  · rw [f2, hq2]
    exact pick_sum_max p q _ i2 2 hq (by simp) h2
  · rw [f3, hq3]
    exact pick_diff_max p q _ i4 3 hq (by simp) h4

/-- Witness for C6 on the rectangle (0,0), (2,0), (2,3), (0,3), whose
sum/diff extremizers are all unique. -/
theorem reorder_corners_idempotent_witness :
    ((∀ j : Fin 4, j ≠ 0 →
        sumXY (fun j => if j = 0 then (⟨0, 0⟩ : Pt) else if j = 1 then ⟨2, 0⟩
          else if j = 2 then ⟨2, 3⟩ else ⟨0, 3⟩) 0 <
        sumXY (fun j => if j = 0 then (⟨0, 0⟩ : Pt) else if j = 1 then ⟨2, 0⟩
          else if j = 2 then ⟨2, 3⟩ else ⟨0, 3⟩) j) ∧
      (∀ j : Fin 4, j ≠ 1 →
        diffYX (fun j => if j = 0 then (⟨0, 0⟩ : Pt) else if j = 1 then ⟨2, 0⟩
          else if j = 2 then ⟨2, 3⟩ else ⟨0, 3⟩) 1 <
        diffYX (fun j => if j = 0 then (⟨0, 0⟩ : Pt) else if j = 1 then ⟨2, 0⟩
          else if j = 2 then ⟨2, 3⟩ else ⟨0, 3⟩) j)) ∧
    reorder_corners (reorder_corners
        (fun j => if j = 0 then (⟨0, 0⟩ : Pt) else if j = 1 then ⟨2, 0⟩
          else if j = 2 then ⟨2, 3⟩ else ⟨0, 3⟩)) =
      reorder_corners (fun j => if j = 0 then (⟨0, 0⟩ : Pt) else if j = 1 then ⟨2, 0⟩
        else if j = 2 then ⟨2, 3⟩ else ⟨0, 3⟩) :=
  ⟨⟨by decide, by decide⟩,
    reorder_corners_idempotent
      (fun j => if j = 0 then (⟨0, 0⟩ : Pt) else if j = 1 then ⟨2, 0⟩
        else if j = 2 then ⟨2, 3⟩ else ⟨0, 3⟩) 0 2 1 3
      (by decide) (by decide) (by decide) (by decide)⟩

/-! ## Invariant of the best-so-far scan (claims C1, C10) -/

theorem bestFold_inv (skip : CardEntry → Bool) (dist : CardEntry → WithTop ℕ) :
    ∀ (l : List CardEntry) (m : WithTop ℕ) (b : Option CardEntry),
    (∀ w, b = some w → m = dist w ∧ skip w = false) →
    (b = none → m = ⊤) →
    (∀ w, (l.foldl (bestStep skip dist) (m, b)).2 = some w →
      (l.foldl (bestStep skip dist) (m, b)).1 = dist w ∧ skip w = false ∧
        (w ∈ l ∨ b = some w)) ∧
    ((l.foldl (bestStep skip dist) (m, b)).2 = none →
      (l.foldl (bestStep skip dist) (m, b)).1 = ⊤) ∧
    (l.foldl (bestStep skip dist) (m, b)).1 ≤ m ∧
    (∀ e ∈ l, skip e = false → (l.foldl (bestStep skip dist) (m, b)).1 ≤ dist e) := by
  intro l
  induction l with
  | nil =>
    intro m b hb hn
    refine ⟨?_, hn, le_refl _, ?_⟩
    · intro w hw
      obtain ⟨u1, u2⟩ := hb w hw
      exact ⟨u1, u2, Or.inr hw⟩
    · intro e he
      exact absurd he (List.not_mem_nil e)
  | cons a t ih =>
    intro m b hb hn
    rw [List.foldl_cons]
    by_cases hskip : skip a = true
    · have hstep : bestStep skip dist (m, b) a = (m, b) := by
        simp [bestStep, hskip]
      rw [hstep]
      obtain ⟨g1, g2, g3, g4⟩ := ih m b hb hn
      refine ⟨?_, g2, g3, ?_⟩
      · intro w hw
        obtain ⟨u1, u2, u3⟩ := g1 w hw
        exact ⟨u1, u2, u3.imp (List.mem_cons_of_mem a) id⟩
      · intro e he hse
        rcases List.mem_cons.mp he with rfl | he'
        · rw [hse] at hskip
          simp at hskip
        · exact g4 e he' hse
    · have hskip' : skip a = false := by
        cases h : skip a
        · rfl
        · exact absurd h hskip
      by_cases hlt : dist a < m
      · have hstep : bestStep skip dist (m, b) a = (dist a, some a) := by
          simp [bestStep, hskip', hlt]
        rw [hstep]
        have hb' : ∀ w, (some a : Option CardEntry) = some w → dist a = dist w ∧ skip w = false := by
          intro w hw
          cases hw
          exact ⟨rfl, hskip'⟩
        have hn' : (some a : Option CardEntry) = none → dist a = ⊤ := by
          intro h
          cases h
        obtain ⟨g1, g2, g3, g4⟩ := ih (dist a) (some a) hb' hn'
        refine ⟨?_, g2, le_trans g3 (le_of_lt hlt), ?_⟩
        · intro w hw
          obtain ⟨u1, u2, u3⟩ := g1 w hw
          refine ⟨u1, u2, ?_⟩
          rcases u3 with h' | h'
          · exact Or.inl (List.mem_cons_of_mem a h')
          · cases h'
            exact Or.inl (List.mem_cons_self a t)
        · intro e he hse
          rcases List.mem_cons.mp he with rfl | he'
          · exact g3
          · exact g4 e he' hse
      · have hstep : bestStep skip dist (m, b) a = (m, b) := by
          simp [bestStep, hskip', hlt]
        rw [hstep]
        obtain ⟨g1, g2, g3, g4⟩ := ih m b hb hn
        refine ⟨?_, g2, g3, ?_⟩
        · intro w hw
          obtain ⟨u1, u2, u3⟩ := g1 w hw
          exact ⟨u1, u2, u3.imp (List.mem_cons_of_mem a) id⟩
        · intro e he hse
          rcases List.mem_cons.mp he with rfl | he'
          · exact le_trans g3 (not_lt.mp hlt)
          · exact g4 e he' hse

theorem minHamming_fold_le_init (q : List Bool) :
    ∀ (l : List CardEntry) (m : WithTop ℕ),
    l.foldl (fun m e => if e.hash_obj.isEmpty then m
      else min m ((hammingDistance q e.hash_obj : ℕ) : WithTop ℕ)) m ≤ m := by
  intro l
  induction l with
  | nil => intro m; exact le_refl m
  | cons a t ih =>
    intro m
    rw [List.foldl_cons]
    refine le_trans (ih _) ?_
    by_cases ha : a.hash_obj.isEmpty
    · rw [if_pos ha]
    · rw [if_neg ha]
      exact min_le_left _ _

theorem minHammingDist_le (q : List Bool) (data : List CardEntry) (e : CardEntry)
    (he : e ∈ data) (hv : e.hash_obj.isEmpty = false) :
    minHammingDist q data ≤ ((hammingDistance q e.hash_obj : ℕ) : WithTop ℕ) := by
  suffices h : ∀ (l : List CardEntry) (m : WithTop ℕ), e ∈ l →
      l.foldl (fun m e => if e.hash_obj.isEmpty then m
        else min m ((hammingDistance q e.hash_obj : ℕ) : WithTop ℕ)) m ≤
      ((hammingDistance q e.hash_obj : ℕ) : WithTop ℕ) from h data ⊤ he
  intro l
  induction l with
  | nil =>
    intro m hm
    exact absurd hm (List.not_mem_nil e)
  | cons a t ih =>
    intro m hm
    rw [List.foldl_cons]
    rcases List.mem_cons.mp hm with rfl | hm'
    · refine le_trans (minHamming_fold_le_init q t _) ?_
      rw [if_neg (by rw [hv]; exact Bool.false_ne_true)]
      exact min_le_right _ _
    · exact ih _ hm'

/-! ## Claim C1 -/

theorem tiebreakResult_cases (qhex : String) (tied : List CardEntry) (T2 : ℕ)
    (hq : qhex ≠ ("")) :
    ((∀ e ∈ tied, (T2 : WithTop ℕ) < custom_hex_char_diff_distance qhex e.hash) →
      tiebreakResult qhex tied T2 = none) ∧
    (∀ res, tiebreakResult qhex tied T2 = some res →
      res.metric = Metric.tiebreak ∧ res.entry ∈ tied ∧
      (∀ e ∈ tied, custom_hex_char_diff_distance qhex res.entry.hash ≤
        custom_hex_char_diff_distance qhex e.hash) ∧
      custom_hex_char_diff_distance qhex res.entry.hash ≤ (T2 : WithTop ℕ)) ∧
    ((∃ e ∈ tied, custom_hex_char_diff_distance qhex e.hash ≤ (T2 : WithTop ℕ)) →
      ∃ res, tiebreakResult qhex tied T2 = some res) := by
  have hqempty : custom_hex_char_diff_distance qhex ("") = ⊤ :=
    custom_hex_top qhex ("") (length_ne_of_ne_empty qhex ("") hq rfl)
  obtain ⟨inv1, inv2, inv3, inv4⟩ := bestFold_inv (fun e => decide (e.hash = ("")))
    (fun e => custom_hex_char_diff_distance qhex e.hash) tied ⊤ none
    (fun w h => nomatch h) (fun _ => rfl)
  simp only [tiebreakResult]
  set r := tied.foldl (bestStep (fun e => decide (e.hash = ("")))
    (fun e => custom_hex_char_diff_distance qhex e.hash))
    ((⊤ : WithTop ℕ), (none : Option CardEntry)) with hrdef
  refine ⟨?_, ?_, ?_⟩
  · intro hall
    cases hr2 : r.2 with
    | none => rfl
    | some w =>
      obtain ⟨u1, u2, u3⟩ := inv1 w hr2
      have hw_mem : w ∈ tied := by
        rcases u3 with h | h
        · exact h
        · cases h
      exact if_neg (not_le.mpr (by rw [u1]; exact hall w hw_mem))
  · intro res hres
    cases hr2 : r.2 with
    | none =>
      rw [hr2] at hres
      exact absurd hres (by simp)
    | some w =>
      rw [hr2] at hres
      obtain ⟨u1, u2, u3⟩ := inv1 w hr2
      have hw_mem : w ∈ tied := by
        rcases u3 with h | h
        · exact h
        · cases h
      by_cases hle : r.1 ≤ (T2 : WithTop ℕ)
      · have h2 : (if r.1 ≤ (T2 : WithTop ℕ) then
            some (⟨w, Metric.tiebreak, r.1⟩ : MatchResult) else none) = some res := hres
        rw [if_pos hle] at h2
        obtain rfl : (⟨w, Metric.tiebreak, r.1⟩ : MatchResult) = res := Option.some.inj h2
        refine ⟨rfl, hw_mem, ?_, ?_⟩
        · intro e he
          by_cases hh : e.hash = ("")
          · show custom_hex_char_diff_distance qhex w.hash ≤ _
            rw [hh, hqempty]
            exact le_top
          · have hskip : decide (e.hash = ("")) = false := decide_eq_false hh
            have h3 := inv4 e he hskip
            show custom_hex_char_diff_distance qhex w.hash ≤ _
            rw [← u1]
            exact h3
        · show custom_hex_char_diff_distance qhex w.hash ≤ (T2 : WithTop ℕ)
          rw [← u1]
          exact hle
      · have h2 : (if r.1 ≤ (T2 : WithTop ℕ) then
            some (⟨w, Metric.tiebreak, r.1⟩ : MatchResult) else none) = some res := hres
        rw [if_neg hle] at h2
        exact absurd h2 (by simp)
  · rintro ⟨e, he, hle⟩
    have hh : e.hash ≠ ("") := by
      intro hemp
      rw [hemp, hqempty] at hle
      simp at hle
    have hskip : decide (e.hash = ("")) = false := decide_eq_false hh
    have h1 : r.1 ≤ custom_hex_char_diff_distance qhex e.hash := inv4 e he hskip
    have h2 : r.1 ≤ (T2 : WithTop ℕ) := le_trans h1 hle
    cases hr2 : r.2 with
    | none =>
      exfalso
      have h3 := inv2 hr2
      rw [h3] at h2
      simp at h2
    | some w =>
      refine ⟨⟨w, Metric.tiebreak, r.1⟩, ?_⟩
      exact if_pos h2

/-- Claim C1: when the minimum Hamming distance is within T1 but attained by
more than one catalog entry, the matcher resolves the tie by the secondary
hex-digit distance: if every tied entry's secondary distance exceeds T2 it
returns no-match (despite the acceptable primary distance); any returned
result carries the tie-break metric, is one of the tied entries, minimizes
the secondary distance among them, and its secondary distance is within T2;
and a result is returned whenever some tied entry is within T2. -/
theorem tiebreak_matcher_resolves_ties (q : List Bool) (qhex : String)
    (data : List CardEntry) (T1 T2 : ℕ) (hq : qhex ≠ (""))
    (hmin : minHammingDist q data ≤ (T1 : WithTop ℕ))
    (htie : 1 < (tiedOnHamming q data).length) :
    ((∀ e ∈ tiedOnHamming q data,
        (T2 : WithTop ℕ) < custom_hex_char_diff_distance qhex e.hash) →
      find_matching_card_with_tiebreak q qhex data T1 T2 = none) ∧
    (∀ res, find_matching_card_with_tiebreak q qhex data T1 T2 = some res →
      res.metric = Metric.tiebreak ∧ res.entry ∈ tiedOnHamming q data ∧
      (∀ e ∈ tiedOnHamming q data, custom_hex_char_diff_distance qhex res.entry.hash ≤
        custom_hex_char_diff_distance qhex e.hash) ∧
      custom_hex_char_diff_distance qhex res.entry.hash ≤ (T2 : WithTop ℕ)) ∧
    ((∃ e ∈ tiedOnHamming q data,
        custom_hex_char_diff_distance qhex e.hash ≤ (T2 : WithTop ℕ)) →
      ∃ res, find_matching_card_with_tiebreak q qhex data T1 T2 = some res) := by
  have hne : data ≠ [] := by
    intro h
    rw [h] at htie
    simp [tiedOnHamming] at htie
  have hE : data.isEmpty = false := isEmpty_false_of_ne_nil data hne
  have hT1 : ¬ ((T1 : WithTop ℕ) < minHammingDist q data) := not_lt.mpr hmin
  obtain ⟨a, b0, rest, htied⟩ : ∃ a b0 rest, tiedOnHamming q data = a :: b0 :: rest := by
    rcases h : tiedOnHamming q data with _ | ⟨a, _ | ⟨b0, rest⟩⟩
    · rw [h] at htie
      simp at htie
    · rw [h] at htie
      simp at htie
    · exact ⟨a, b0, rest, rfl⟩
  have hbridge : find_matching_card_with_tiebreak q qhex data T1 T2 =
      tiebreakResult qhex (tiedOnHamming q data) T2 := by
    unfold find_matching_card_with_tiebreak
    rw [hE, if_neg Bool.false_ne_true, if_neg hT1, htied]
  rw [hbridge]
  exact tiebreakResult_cases qhex (tiedOnHamming q data) T2 hq

/-- Witness for C1: two entries tied at Hamming distance 1, secondary
distances 1 ("aa") and 2 ("ad") against query "ab", T1 = 5, T2 = 3. -/
theorem tiebreak_matcher_resolves_ties_witness :
    (((("ab") : String) ≠ ("") ∧
      minHammingDist [true, false]
        [(⟨("a"), ("A"), ("aa"), [false, false]⟩ : CardEntry),
          ⟨("b"), ("B"), ("ad"), [true, true]⟩] ≤ ((5 : ℕ) : WithTop ℕ) ∧
      1 < (tiedOnHamming [true, false]
        [(⟨("a"), ("A"), ("aa"), [false, false]⟩ : CardEntry),
          ⟨("b"), ("B"), ("ad"), [true, true]⟩]).length) ∧
    ((∀ e ∈ tiedOnHamming [true, false]
        [(⟨("a"), ("A"), ("aa"), [false, false]⟩ : CardEntry),
          ⟨("b"), ("B"), ("ad"), [true, true]⟩],
        ((3 : ℕ) : WithTop ℕ) < custom_hex_char_diff_distance ("ab") e.hash) →
      find_matching_card_with_tiebreak [true, false] ("ab")
        [(⟨("a"), ("A"), ("aa"), [false, false]⟩ : CardEntry),
          ⟨("b"), ("B"), ("ad"), [true, true]⟩] 5 3 = none) ∧
    (∀ res, find_matching_card_with_tiebreak [true, false] ("ab")
        [(⟨("a"), ("A"), ("aa"), [false, false]⟩ : CardEntry),
          ⟨("b"), ("B"), ("ad"), [true, true]⟩] 5 3 = some res →
      res.metric = Metric.tiebreak ∧
      res.entry ∈ tiedOnHamming [true, false]
        [(⟨("a"), ("A"), ("aa"), [false, false]⟩ : CardEntry),
          ⟨("b"), ("B"), ("ad"), [true, true]⟩] ∧
      (∀ e ∈ tiedOnHamming [true, false]
          [(⟨("a"), ("A"), ("aa"), [false, false]⟩ : CardEntry),
            ⟨("b"), ("B"), ("ad"), [true, true]⟩],
        custom_hex_char_diff_distance ("ab") res.entry.hash ≤
          custom_hex_char_diff_distance ("ab") e.hash) ∧
      custom_hex_char_diff_distance ("ab") res.entry.hash ≤ ((3 : ℕ) : WithTop ℕ)) ∧
    ((∃ e ∈ tiedOnHamming [true, false]
        [(⟨("a"), ("A"), ("aa"), [false, false]⟩ : CardEntry),
          ⟨("b"), ("B"), ("ad"), [true, true]⟩],
        custom_hex_char_diff_distance ("ab") e.hash ≤ ((3 : ℕ) : WithTop ℕ)) →
      ∃ res, find_matching_card_with_tiebreak [true, false] ("ab")
        [(⟨("a"), ("A"), ("aa"), [false, false]⟩ : CardEntry),
          ⟨("b"), ("B"), ("ad"), [true, true]⟩] 5 3 = some res)) :=
  ⟨⟨by decide, by decide, by decide⟩,
    tiebreak_matcher_resolves_ties [true, false] ("ab")
      [(⟨("a"), ("A"), ("aa"), [false, false]⟩ : CardEntry),
        ⟨("b"), ("B"), ("ad"), [true, true]⟩] 5 3
      (by decide) (by decide) (by decide)⟩

/-! ## Claim C10 -/

/-- Claim C10: when exactly one catalog entry attains the minimum Hamming
distance and that minimum is within the threshold, the simple matcher
(`find_matching_card`) and the tie-break matcher agree: both return that
entry (the latter with the Hamming metric). -/
theorem matchers_agree_on_unique_minimum (q : List Bool) (qhex : String)
    (data : List CardEntry) (T1 T2 : ℕ) (e : CardEntry)
    (huniq : tiedOnHamming q data = [e])
    (hthr : minHammingDist q data ≤ (T1 : WithTop ℕ)) :
    find_matching_card q data T1 = some e ∧
    find_matching_card_with_tiebreak q qhex data T1 T2 =
      some ⟨e, Metric.hamming, minHammingDist q data⟩ := by
  have he_mem : e ∈ tiedOnHamming q data := by
    rw [huniq]
    exact List.mem_singleton_self e
  have hfilter := List.mem_filter.mp he_mem
  have hedata : e ∈ data := hfilter.1
  have hvalid : e.hash_obj.isEmpty = false ∧
      ((hammingDistance q e.hash_obj : ℕ) : WithTop ℕ) = minHammingDist q data := by
    have hpred := hfilter.2
    simpa using hpred
  have hne : data ≠ [] := by
    intro h
    rw [h] at hedata
    exact absurd hedata (List.not_mem_nil e)
  have hE : data.isEmpty = false := isEmpty_false_of_ne_nil data hne
  have hT1 : ¬ ((T1 : WithTop ℕ) < minHammingDist q data) := not_lt.mpr hthr
  constructor
  · -- the V1 matcher
    obtain ⟨inv1, inv2, inv3, inv4⟩ := bestFold_inv (fun e => e.hash_obj.isEmpty)
      (fun e => ((hammingDistance q e.hash_obj : ℕ) : WithTop ℕ)) data ⊤ none
      (fun w h => nomatch h) (fun _ => rfl)
    set r := data.foldl (bestStep (fun e => e.hash_obj.isEmpty)
      (fun e => ((hammingDistance q e.hash_obj : ℕ) : WithTop ℕ)))
      ((⊤ : WithTop ℕ), (none : Option CardEntry)) with hrdef
    have hgoal : find_matching_card q data T1 =
        (match r.2 with
        | some best_match => if r.1 ≤ (T1 : WithTop ℕ) then some best_match else none
        | none => none) := rfl
    have hle_e : r.1 ≤ ((hammingDistance q e.hash_obj : ℕ) : WithTop ℕ) :=
      inv4 e hedata hvalid.1
    rw [hvalid.2] at hle_e
    cases hr2 : r.2 with
    | none =>
      exfalso
      have h3 := inv2 hr2
      rw [h3] at hle_e
      have h5 : minHammingDist q data = ⊤ := top_le_iff.mp hle_e
      rw [h5] at hthr
      simp at hthr
    | some w =>
      obtain ⟨u1, u2, u3⟩ := inv1 w hr2
      have hw_data : w ∈ data := by
        rcases u3 with h | h
        · exact h
        · cases h
      have hgew : minHammingDist q data ≤ ((hammingDistance q w.hash_obj : ℕ) : WithTop ℕ) :=
        minHammingDist_le q data w hw_data u2
      have hr1 : r.1 = minHammingDist q data := le_antisymm hle_e (by rw [u1]; exact hgew)
      have hwmin : ((hammingDistance q w.hash_obj : ℕ) : WithTop ℕ) = minHammingDist q data := by
        rw [← u1, hr1]
      have hw_tied : w ∈ tiedOnHamming q data := by
        apply List.mem_filter.mpr
        refine ⟨hw_data, ?_⟩
        simp [u2, hwmin]
      rw [huniq] at hw_tied
      have hwe : w = e := List.mem_singleton.mp hw_tied
      rw [hgoal, hr2]
      have hcond : r.1 ≤ (T1 : WithTop ℕ) := by
        rw [hr1]
        exact hthr
      exact (if_pos hcond).trans (by rw [hwe])
  · -- the tie-break matcher
    unfold find_matching_card_with_tiebreak
    rw [hE, if_neg Bool.false_ne_true, if_neg hT1, huniq]

/-- Witness for C10: a two-entry catalog with a unique closest entry at
Hamming distance 0 within T1 = 1. -/
theorem matchers_agree_on_unique_minimum_witness :
    (tiedOnHamming [false, false]
        [(⟨("a"), ("A"), ("00"), [false, false]⟩ : CardEntry),
          ⟨("b"), ("B"), ("0f"), [true, true]⟩] =
      [(⟨("a"), ("A"), ("00"), [false, false]⟩ : CardEntry)] ∧
      minHammingDist [false, false]
        [(⟨("a"), ("A"), ("00"), [false, false]⟩ : CardEntry),
          ⟨("b"), ("B"), ("0f"), [true, true]⟩] ≤ ((1 : ℕ) : WithTop ℕ)) ∧
    (find_matching_card [false, false]
        [(⟨("a"), ("A"), ("00"), [false, false]⟩ : CardEntry),
          ⟨("b"), ("B"), ("0f"), [true, true]⟩] 1 =
      some ⟨("a"), ("A"), ("00"), [false, false]⟩ ∧
    find_matching_card_with_tiebreak [false, false] ("ab")
        [(⟨("a"), ("A"), ("00"), [false, false]⟩ : CardEntry),
          ⟨("b"), ("B"), ("0f"), [true, true]⟩] 1 9 =
      some ⟨⟨("a"), ("A"), ("00"), [false, false]⟩, Metric.hamming,
        minHammingDist [false, false]
          [(⟨("a"), ("A"), ("00"), [false, false]⟩ : CardEntry),
            ⟨("b"), ("B"), ("0f"), [true, true]⟩]⟩) :=
  ⟨⟨by decide, by decide⟩,
    matchers_agree_on_unique_minimum [false, false] ("ab")
      [(⟨("a"), ("A"), ("00"), [false, false]⟩ : CardEntry),
        ⟨("b"), ("B"), ("0f"), [true, true]⟩] 1 9
      ⟨("a"), ("A"), ("00"), [false, false]⟩ (by decide) (by decide)⟩

/-! ## Claim C4 -/

theorem warp_pair_dims (img : Image) (tm : Unit) (c : Prop) [Decidable c] :
    ((warpPerspective img tm
        ((if c then POKEMON_CARD_STD_HEIGHT else POKEMON_CARD_STD_WIDTH),
          (if c then POKEMON_CARD_STD_WIDTH else POKEMON_CARD_STD_HEIGHT))).width =
        POKEMON_CARD_STD_WIDTH ∧
      (warpPerspective img tm
        ((if c then POKEMON_CARD_STD_HEIGHT else POKEMON_CARD_STD_WIDTH),
          (if c then POKEMON_CARD_STD_WIDTH else POKEMON_CARD_STD_HEIGHT))).height =
        POKEMON_CARD_STD_HEIGHT) ∨
    ((warpPerspective img tm
        ((if c then POKEMON_CARD_STD_HEIGHT else POKEMON_CARD_STD_WIDTH),
          (if c then POKEMON_CARD_STD_WIDTH else POKEMON_CARD_STD_HEIGHT))).width =
        POKEMON_CARD_STD_HEIGHT ∧
      (warpPerspective img tm
        ((if c then POKEMON_CARD_STD_HEIGHT else POKEMON_CARD_STD_WIDTH),
          (if c then POKEMON_CARD_STD_WIDTH else POKEMON_CARD_STD_HEIGHT))).height =
        POKEMON_CARD_STD_WIDTH) := by
  by_cases h : c
  · right
    simp [warpPerspective, h]
  · left
    simp [warpPerspective, h]

/-- Counterexample to C4 as stated: a landscape quadrilateral (width 20,
height 10) is warped into a canonical card of width 349 and height 250 —
not the claimed constant width 250 / height 349 (the source swaps the
target dimensions when the averaged width exceeds the averaged height). -/
theorem warp_dims_claimC4_counterexample :
    warp_card_to_standard_ratio (some ⟨40, 40⟩)
        (some [[0, 0], [20, 0], [20, 10], [0, 10]]) = some ⟨250, 349⟩ ∧
    ¬((Image.mk 250 349).width = POKEMON_CARD_STD_WIDTH ∧
      (Image.mk 250 349).height = POKEMON_CARD_STD_HEIGHT) := by
  decide

/-- Claim C4 (amended): every canonical card the normalizer produces has
the fixed dimension pair {W, H} = {250, 349} with H = 349 the truncated
W / (6.3/8.8); portrait candidates come out W wide and H high, landscape
candidates H wide and W high — constant up to this orientation swap,
regardless of the source quadrilateral's scale or rotation. -/
theorem warp_dims_constant_up_to_orientation (image : Option Image)
    (corners : Option (List (List ℤ))) (out : Image)
    (h : warp_card_to_standard_ratio image corners = some out) :
    POKEMON_CARD_STD_WIDTH = 250 ∧ POKEMON_CARD_STD_HEIGHT = 349 ∧
    ((out.width = POKEMON_CARD_STD_WIDTH ∧ out.height = POKEMON_CARD_STD_HEIGHT) ∨
      (out.width = POKEMON_CARD_STD_HEIGHT ∧ out.height = POKEMON_CARD_STD_WIDTH)) := by
  refine ⟨rfl, rfl, ?_⟩
  rcases image with - | img <;> rcases corners with - | l
  · simp [warp_card_to_standard_ratio] at h
  · simp [warp_card_to_standard_ratio] at h
  · simp [warp_card_to_standard_ratio] at h
  · simp only [warp_card_to_standard_ratio] at h
    split at h
    · exact absurd h (by simp)
    · split at h
      · exact absurd h (by simp)
      · split at h
        · exact absurd h (by simp)
        · obtain rfl := Option.some.inj h
          exact warp_pair_dims img _ _

/-- Witness for the amended C4: a portrait quadrilateral (width 10, height
20) produces a 250 × 349 canonical card. -/
theorem warp_dims_constant_up_to_orientation_witness :
    warp_card_to_standard_ratio (some ⟨40, 40⟩)
        (some [[0, 0], [10, 0], [10, 20], [0, 20]]) = some ⟨349, 250⟩ ∧
    (POKEMON_CARD_STD_WIDTH = 250 ∧ POKEMON_CARD_STD_HEIGHT = 349 ∧
      (((Image.mk 349 250).width = POKEMON_CARD_STD_WIDTH ∧
          (Image.mk 349 250).height = POKEMON_CARD_STD_HEIGHT) ∨
        ((Image.mk 349 250).width = POKEMON_CARD_STD_HEIGHT ∧
          (Image.mk 349 250).height = POKEMON_CARD_STD_WIDTH))) :=
  ⟨by decide,
    warp_dims_constant_up_to_orientation (some ⟨40, 40⟩)
      (some [[0, 0], [10, 0], [10, 20], [0, 20]]) ⟨349, 250⟩ (by decide)⟩

end CardDetector
